import Mathlib

/-
  Verification of the media-api service (src/app.py) against its
  natural-language specification.

  Shallow embedding conventions:
  * Python strings are modelled as `List Char`; file contents as `List Nat`.
  * The filesystem is an explicit structure `FS` of files (path, content)
    and directories, passed in and out of the stateful handlers.
  * `os.path.normpath`, `os.path.join`, `os.path.abspath` and
    `os.path.dirname` are embedded following CPython's posixpath source
    (sep = '/'), with `abspath` taking the working directory explicitly.
  * External collaborators (werkzeug's `secure_filename`, `imghdr.what`,
    `mimetypes.guess_type`, uuid and datetime) appear as parameters of the
    ingestion context; Flask's `send_file` is modelled from the spec.
-/

/-- ASCII whitespace as stripped by Python's `str.strip()` on header text. -/
def isSpaceC (c : Char) : Bool :=
  c = ' ' || c = (Char.ofNat 9) || c = (Char.ofNat 10) || c = (Char.ofNat 13) ||
  c = (Char.ofNat 11) || c = (Char.ofNat 12)

/-- Python `str.strip()` (no argument): drop whitespace at both ends. -/
def pystrip (l : List Char) : List Char :=
  ((l.dropWhile isSpaceC).reverse.dropWhile isSpaceC).reverse

/-- Python `str.rstrip("/")`: drop trailing slashes. -/
def rstripSlash (l : List Char) : List Char :=
  (l.reverse.dropWhile (fun c => c = '/')).reverse

/-- True when the string is nonempty and does not end in whitespace. -/
def noTrailingSpace (l : List Char) : Bool :=
  match l.getLast? with
  | some c => !(isSpaceC c)
  | none => false

/-- Python `str.lower()` (ASCII range, as used for file extensions). -/
def lowerS (l : List Char) : List Char := l.map Char.toLower

/-- Python `int()` on a nonempty string of decimal digits. -/
def natOfDigits (l : List Char) : Nat :=
  l.foldl (fun acc c => acc * 10 + (c.toNat - 48)) 0

/-- Python `str.split(sep)` for a one-character separator. -/
def splitChar (sep : Char) : List Char → List (List Char)
  | [] => [[]]
  | c :: rest =>
    match splitChar sep rest with
    | [] => [[]]
    | h :: t => if c = sep then [] :: h :: t else (c :: h) :: t

/-- Python `sep.join(...)` for a one-character separator. -/
def joinChar (sep : Char) : List (List Char) → List Char
  | [] => []
  | [c] => c
  | c :: c2 :: t => c ++ sep :: joinChar sep (c2 :: t)

theorem splitChar_ne_nil (sep : Char) (l : List Char) : splitChar sep l ≠ [] := by
  cases l with
  | nil => simp [splitChar]
  | cons c rest =>
    simp only [splitChar]
    cases h : splitChar sep rest with
    | nil => simp
    | cons h' t => by_cases hc : c = sep <;> simp [hc]

theorem splitChar_cons_sep (sep : Char) (l : List Char) :
    splitChar sep (sep :: l) = [] :: splitChar sep l := by
  simp only [splitChar]
  cases h : splitChar sep l with
  | nil => exact absurd h (splitChar_ne_nil sep l)
  | cons h' t => simp

theorem splitChar_cons_of_ne (sep c : Char) (l : List Char) (hc : c ≠ sep) :
    splitChar sep (c :: l) =
      ((splitChar sep l).headI.cons c) :: (splitChar sep l).tail := by
  simp only [splitChar]
  cases h : splitChar sep l with
  | nil => exact absurd h (splitChar_ne_nil sep l)
  | cons h' t => simp [hc]

/-- Splitting a string that starts with a separator-free block followed by the
separator peels off that block as the first component. -/
theorem splitChar_sepfree_append (sep : Char) (c x : List Char) (hc : sep ∉ c) :
    splitChar sep (c ++ sep :: x) = c :: splitChar sep x := by
  induction c with
  | nil => simpa using splitChar_cons_sep sep x
  | cons a c' ih =>
    have ha : a ≠ sep := fun h => hc (h ▸ List.mem_cons_self a c')
    have hc' : sep ∉ c' := fun h => hc (List.mem_cons_of_mem a h)
    rw [List.cons_append, splitChar_cons_of_ne sep a _ ha, ih hc']
    simp

/-- Splitting a separator-free string yields a single component. -/
theorem splitChar_sepfree (sep : Char) (c : List Char) (hc : sep ∉ c) :
    splitChar sep c = [c] := by
  induction c with
  | nil => simp [splitChar]
  | cons a c' ih =>
    have ha : a ≠ sep := fun h => hc (h ▸ List.mem_cons_self a c')
    have hc' : sep ∉ c' := fun h => hc (List.mem_cons_of_mem a h)
    rw [splitChar_cons_of_ne sep a _ ha, ih hc']
    simp

theorem joinChar_splitChar (sep : Char) (l : List Char) :
    joinChar sep (splitChar sep l) = l := by
  induction l with
  | nil => simp [splitChar, joinChar]
  | cons c rest ih =>
    simp only [splitChar]
    cases h : splitChar sep rest with
    | nil => exact absurd h (splitChar_ne_nil sep rest)
    | cons h' t =>
      rw [h] at ih
      by_cases hc : c = sep
      · subst hc
        simpa [joinChar] using ih
      · simp only [hc, if_false]
        cases t with
        | nil => simpa [joinChar] using ih
        | cons t1 t2 => simpa [joinChar] using congrArg (c :: ·) ih

theorem splitChar_joinChar (sep : Char) (ls : List (List Char))
    (hls : ls ≠ []) (hfree : ∀ c ∈ ls, sep ∉ c) :
    splitChar sep (joinChar sep ls) = ls := by
  induction ls with
  | nil => exact absurd rfl hls
  | cons c rest ih =>
    cases rest with
    | nil =>
      simpa [joinChar] using splitChar_sepfree sep c (hfree c (List.mem_cons_self c []))
    | cons c2 t =>
      have h1 : sep ∉ c := hfree c (List.mem_cons_self c _)
      have h2 : ∀ x ∈ c2 :: t, sep ∉ x := fun x hx => hfree x (List.mem_cons_of_mem c hx)
      rw [joinChar, splitChar_sepfree_append sep c _ h1, ih (by simp) h2]

theorem mem_splitChar_sepfree (sep : Char) (l : List Char) :
    ∀ c ∈ splitChar sep l, sep ∉ c := by
  induction l with
  | nil => intro c hc; simp [splitChar] at hc; simp [hc]
  | cons a rest ih =>
    intro c hc
    simp only [splitChar] at hc
    cases h : splitChar sep rest with
    | nil => exact absurd h (splitChar_ne_nil sep rest)
    | cons h' t =>
      rw [h] at hc
      rw [h] at ih
      by_cases ha : a = sep
      · simp [ha] at hc
        rcases hc with hc | hc | hc
        · simp [hc]
        · exact hc ▸ ih h' (by simp)
        · exact ih c (by simp [hc])
      · simp [ha] at hc
        rcases hc with hc | hc
        · intro hmem
          rw [hc] at hmem
          rcases List.mem_cons.mp hmem with h1 | h1
          · exact ha h1.symm
          · exact ih h' (by simp) h1
        · exact ih c (by simp [hc])

theorem joinChar_append (sep : Char) (l1 l2 : List (List Char))
    (h1 : l1 ≠ []) (h2 : l2 ≠ []) :
    joinChar sep (l1 ++ l2) = joinChar sep l1 ++ sep :: joinChar sep l2 := by
  induction l1 with
  | nil => exact absurd rfl h1
  | cons c rest ih =>
    cases rest with
    | nil =>
      cases l2 with
      | nil => exact absurd rfl h2
      | cons d t => simp [joinChar]
    | cons c2 t =>
      have h := ih (by simp)
      rw [List.cons_append] at h
      show c ++ sep :: joinChar sep (c2 :: (t ++ l2)) =
        (c ++ sep :: joinChar sep (c2 :: t)) ++ sep :: joinChar sep l2
      rw [h]
      simp

theorem joinChar_ne_nil (sep : Char) (c : List Char) (t : List (List Char))
    (hc : c ≠ []) : joinChar sep (c :: t) ≠ [] := by
  cases t with
  | nil => simpa [joinChar]
  | cons c2 t' => simp [joinChar, hc]

theorem isPrefixOf_eq_true (l1 l2 : List Char) :
    l1.isPrefixOf l2 = true ↔ l1 <+: l2 :=
  List.isPrefixOf_iff_prefix

/-- One step of CPython posixpath.normpath's component loop; `slashes` is the
number of initial slashes of the input (0 means a relative path). -/
def normStep (slashes : Nat) (acc : List (List Char)) (comp : List Char) :
    List (List Char) :=
  if comp = [] ∨ comp = ".".toList then acc
  else if comp ≠ "..".toList ∨ (slashes = 0 ∧ acc = []) ∨
      (acc ≠ [] ∧ acc.getLast? = some ("..".toList)) then acc ++ [comp]
  else acc.dropLast

/-- The number of initial slashes kept by posixpath.normpath (POSIX keeps a
double initial slash, collapses three or more to one). -/
def normSlashes (p : List Char) : Nat :=
  if ("/".toList).isPrefixOf p then
    if ("//".toList).isPrefixOf p && !(("///".toList).isPrefixOf p) then 2 else 1
  else 0

/-- Reassembly step of posixpath.normpath: initial slashes, joined
components, with `"."` for an empty result. -/
def normAssemble (slashes : Nat) (nc : List (List Char)) : List Char :=
  if List.replicate slashes '/' ++ joinChar '/' nc = [] then ".".toList
  else List.replicate slashes '/' ++ joinChar '/' nc

/-- CPython `posixpath.normpath`: collapse `.` and redundant separators,
resolve `..` lexically, preserving up to two initial slashes. -/
def normpath (p : List Char) : List Char :=
  if p = [] then ".".toList
  else normAssemble (normSlashes p)
    (List.foldl (normStep (normSlashes p)) [] (splitChar '/' p))

/-- CPython `posixpath.join` for two arguments. -/
def pjoin (a b : List Char) : List Char :=
  if ("/".toList).isPrefixOf b then b
  else if a = [] ∨ a.getLast? = some '/' then a ++ b
  else a ++ '/' :: b

/-- CPython `posixpath.abspath`, with the working directory explicit. -/
def abspath (cwd p : List Char) : List Char :=
  if ("/".toList).isPrefixOf p then normpath p else normpath (pjoin cwd p)

/-- CPython `posixpath.dirname`. -/
def dirname (p : List Char) : List Char :=
  let head := (p.reverse.dropWhile (fun c => c ≠ '/')).reverse
  if head ≠ [] ∧ head.any (fun c => c ≠ '/') then
    (head.reverse.dropWhile (fun c => c = '/')).reverse
  else head

/-- A path component that survives normalization: nonempty, not a dot entry. -/
def goodComp (c : List Char) : Prop :=
  c ≠ [] ∧ c ≠ ".".toList ∧ c ≠ "..".toList

instance (c : List Char) : Decidable (goodComp c) := by
  unfold goodComp; infer_instance

theorem normFold_good (k : Nat) (hk : k ≠ 0) (l : List (List Char)) :
    ∀ (acc : List (List Char)), (∀ c ∈ acc, goodComp c ∧ '/' ∉ c) →
    (∀ c ∈ l, '/' ∉ c) →
    ∀ c ∈ List.foldl (normStep k) acc l, goodComp c ∧ '/' ∉ c := by
  induction l with
  | nil => intro acc hacc _ c hc; exact hacc c hc
  | cons comp rest ih =>
    intro acc hacc hl c hc
    rw [List.foldl_cons] at hc
    have hcomp : '/' ∉ comp := hl comp (List.mem_cons_self _ _)
    have hrest : ∀ c ∈ rest, '/' ∉ c := fun c h => hl c (List.mem_cons_of_mem _ h)
    refine ih _ ?_ hrest c hc
    intro d hd
    unfold normStep at hd
    by_cases h1 : comp = [] ∨ comp = ".".toList
    · rw [if_pos h1] at hd; exact hacc d hd
    · rw [if_neg h1] at hd
      by_cases h2 : comp ≠ "..".toList ∨ (k = 0 ∧ acc = []) ∨
          (acc ≠ [] ∧ acc.getLast? = some ("..".toList))
      · rw [if_pos h2] at hd
        rcases List.mem_append.mp hd with hd | hd
        · exact hacc d hd
        · have hde : d = comp := by simpa using hd
          subst hde
          push_neg at h1
          rcases h2 with h2 | h2 | h2
          · exact ⟨⟨h1.1, h1.2, h2⟩, hcomp⟩
          · exact absurd h2.1 hk
          · have : "..".toList ∈ acc := by
              obtain ⟨hne, heq⟩ :=
                List.mem_getLast?_eq_getLast (l := acc) (x := "..".toList)
                  (Option.mem_def.mpr h2.2)
              exact heq ▸ List.getLast_mem hne
            exact absurd (hacc _ this).1.2.2 (by simp)
      · rw [if_neg h2] at hd
        exact hacc d (List.dropLast_subset acc hd)

theorem normFold_append (k : Nat) (l : List (List Char)) :
    ∀ (acc : List (List Char)), (∀ c ∈ l, goodComp c) →
    List.foldl (normStep k) acc l = acc ++ l := by
  induction l with
  | nil => intro acc _; simp
  | cons comp rest ih =>
    intro acc hl
    have hcomp : goodComp comp := hl comp (List.mem_cons_self _ _)
    have hrest : ∀ c ∈ rest, goodComp c := fun c h => hl c (List.mem_cons_of_mem _ h)
    rw [List.foldl_cons]
    have hstep : normStep k acc comp = acc ++ [comp] := by
      unfold normStep
      rw [if_neg (by push_neg; exact ⟨hcomp.1, hcomp.2.1⟩), if_pos (Or.inl hcomp.2.2)]
    rw [hstep, ih _ hrest, List.append_assoc]
    simp

theorem joinChar_head (sep a : Char) (p1 : List Char) (rest : List (List Char)) :
    ∃ q, joinChar sep ((a :: p1) :: rest) = a :: q := by
  cases rest with
  | nil => exact ⟨p1, rfl⟩
  | cons c2 t => exact ⟨p1 ++ sep :: joinChar sep (c2 :: t), rfl⟩

theorem normSlashes_pos (p : List Char) (hp : ("/".toList).isPrefixOf p = true) :
    normSlashes p = 1 ∨ normSlashes p = 2 := by
  unfold normSlashes
  rw [if_pos hp]
  by_cases h : ("//".toList).isPrefixOf p && !(("///".toList).isPrefixOf p)
  · rw [if_pos h]; right; rfl
  · rw [if_neg h]; left; rfl

theorem normpath_abs_shape (p : List Char) (hp : ("/".toList).isPrefixOf p = true) :
    ∃ nc, normpath p = List.replicate (normSlashes p) '/' ++ joinChar '/' nc ∧
      ∀ c ∈ nc, goodComp c ∧ '/' ∉ c := by
  have hk : normSlashes p ≠ 0 := by
    rcases normSlashes_pos p hp with h | h <;> simp [h]
  have hpne : p ≠ [] := by
    intro h; subst h; simp [List.isPrefixOf] at hp
  refine ⟨List.foldl (normStep (normSlashes p)) [] (splitChar '/' p), ?_, ?_⟩
  · unfold normpath
    rw [if_neg hpne]
    unfold normAssemble
    rw [if_neg ?_]
    intro h
    have := congrArg List.length h
    rw [List.length_append, List.length_replicate] at this
    simp at this
    exact hk this.1
  · exact normFold_good (normSlashes p) hk _ [] (by simp)
      (mem_splitChar_sepfree '/' p)

/-- Lemma: `normpath` is the identity on an absolute path already in canonical form
(a single leading slash followed by slash-joined good components). -/
theorem normpath_canonical (parts : List (List Char)) (hne : parts ≠ [])
    (hgood : ∀ c ∈ parts, goodComp c ∧ '/' ∉ c) :
    normpath ('/' :: joinChar '/' parts) = '/' :: joinChar '/' parts := by
  obtain ⟨p1, rest, rfl⟩ : ∃ p1 rest, parts = p1 :: rest := by
    cases parts with
    | nil => exact absurd rfl hne
    | cons p1 rest => exact ⟨p1, rest, rfl⟩
  obtain ⟨a, p1', rfl⟩ : ∃ a p1', p1 = a :: p1' := by
    cases p1 with
    | nil => exact absurd rfl (hgood [] (List.mem_cons_self _ _)).1.1
    | cons a p1' => exact ⟨a, p1', rfl⟩
  have hane : a ≠ '/' := by
    intro h
    exact (hgood _ (List.mem_cons_self _ _)).2 (h ▸ List.mem_cons_self a p1')
  obtain ⟨q, hq⟩ := joinChar_head '/' a p1' rest
  have hslash : normSlashes ('/' :: joinChar '/' ((a :: p1') :: rest)) = 1 := by
    rw [hq]
    unfold normSlashes
    rw [if_pos (by simp [List.isPrefixOf])]
    have h2 : ("//".toList).isPrefixOf ('/' :: a :: q) = false := by
      rw [show ("//".toList) = ['/', '/'] from rfl]
      simp [List.isPrefixOf]
      exact fun h => hane h.symm
    rw [h2]
    rfl
  have hsplit : splitChar '/' ('/' :: joinChar '/' ((a :: p1') :: rest)) =
      [] :: ((a :: p1') :: rest) := by
    rw [splitChar_cons_sep,
      splitChar_joinChar '/' _ (by simp) (fun c hc => (hgood c hc).2)]
  unfold normpath
  rw [if_neg (by simp)]
  rw [hslash, hsplit]
  rw [List.foldl_cons]
  have hstep0 : normStep 1 [] [] = [] := by unfold normStep; simp
  rw [hstep0, normFold_append 1 _ [] (fun c hc => (hgood c hc).1)]
  unfold normAssemble
  rw [if_neg (by simp)]
  simp

/-- If two slash-terminated blocks with separator-free heads are in the prefix
relation, the heads agree and the tails remain in the prefix relation. -/
theorem prefix_boundary (x : Char) :
    ∀ (a b u v : List Char), x ∉ a → x ∉ b →
      (a ++ x :: u) <+: (b ++ x :: v) → a = b ∧ u <+: v := by
  intro a
  induction a with
  | nil =>
    intro b u v _ hb hpre
    cases b with
    | nil =>
      simp only [List.nil_append] at hpre
      exact ⟨rfl, (List.cons_prefix_cons.mp hpre).2⟩
    | cons c b' =>
      simp only [List.nil_append, List.cons_append] at hpre
      obtain ⟨hx, _⟩ := List.cons_prefix_cons.mp hpre
      exact absurd (hx ▸ List.mem_cons_self c b') hb
  | cons c a' ih =>
    intro b u v ha hb hpre
    cases b with
    | nil =>
      simp only [List.cons_append, List.nil_append] at hpre
      obtain ⟨hx, _⟩ := List.cons_prefix_cons.mp hpre
      exact absurd (hx ▸ List.mem_cons_self c a') ha
    | cons d b' =>
      simp only [List.cons_append] at hpre
      obtain ⟨hcd, hrest⟩ := List.cons_prefix_cons.mp hpre
      have ha' : x ∉ a' := fun h => ha (List.mem_cons_of_mem c h)
      have hb' : x ∉ b' := fun h => hb (List.mem_cons_of_mem d h)
      obtain ⟨heq, hpre'⟩ := ih b' u v ha' hb' hrest
      exact ⟨by rw [hcd, heq], hpre'⟩

/-- Joined components followed by a slash being a string-prefix of another
join forces component-list extension (the media/media-evil distinction). -/
theorem joinChar_extension :
    ∀ (rs fs : List (List Char)), rs ≠ [] →
      (∀ c ∈ rs, '/' ∉ c) → (∀ c ∈ fs, '/' ∉ c) →
      (joinChar '/' rs ++ ['/']) <+: joinChar '/' fs →
      ∃ ex, fs = rs ++ ex ∧ ex ≠ [] := by
  intro rs
  induction rs with
  | nil => intro fs h; exact absurd rfl h
  | cons r rt ih =>
    intro fs _ hrs hfs hpre
    cases rt with
    | nil =>
      cases fs with
      | nil =>
        exfalso
        have := hpre.length_le
        simp [joinChar] at this
      | cons f ft =>
        cases ft with
        | nil =>
          exfalso
          obtain ⟨t, ht⟩ := hpre
          have : '/' ∈ joinChar '/' [f] := by
            rw [← ht]
            simp [joinChar]
          exact hfs f (List.mem_cons_self _ _) (by simpa [joinChar] using this)
        | cons f2 ft' =>
          have hb : (joinChar '/' [r] ++ ['/']) = r ++ '/' :: ([] : List Char) := by
            simp [joinChar]
          rw [hb, joinChar] at hpre
          obtain ⟨hrf, _⟩ := prefix_boundary '/' r f [] (joinChar '/' (f2 :: ft'))
            (hrs r (List.mem_cons_self _ _)) (hfs f (List.mem_cons_self _ _)) hpre
          refine ⟨f2 :: ft', ?_, by simp⟩
          rw [hrf]
          simp
    | cons r2 rt' =>
      cases fs with
      | nil =>
        exfalso
        have := hpre.length_le
        have h2 : 1 ≤ (joinChar '/' (r :: r2 :: rt') ++ ['/']).length := by
          simp
        simp [joinChar] at this
      | cons f ft =>
        cases ft with
        | nil =>
          exfalso
          obtain ⟨t, ht⟩ := hpre
          have : '/' ∈ joinChar '/' [f] := by
            rw [← ht]
            rw [joinChar]
            simp
          exact hfs f (List.mem_cons_self _ _) (by simpa [joinChar] using this)
        | cons f2 ft' =>
          rw [joinChar] at hpre
          have hassoc : (r ++ '/' :: joinChar '/' (r2 :: rt')) ++ ['/'] =
              r ++ '/' :: (joinChar '/' (r2 :: rt') ++ ['/']) := by simp
          rw [hassoc] at hpre
          rw [show joinChar '/' (f :: f2 :: ft') =
            f ++ '/' :: joinChar '/' (f2 :: ft') from rfl] at hpre
          obtain ⟨hrf, hrest⟩ := prefix_boundary '/' r f _ _
            (hrs r (List.mem_cons_self _ _)) (hfs f (List.mem_cons_self _ _)) hpre
          obtain ⟨ex, hex, hexne⟩ := ih (f2 :: ft') (by simp)
            (fun c hc => hrs c (List.mem_cons_of_mem r hc))
            (fun c hc => hfs c (List.mem_cons_of_mem f hc)) hrest
          exact ⟨ex, by rw [hrf, hex]; simp, hexne⟩

/-- The configured storage root is an absolute path in canonical form:
splitting on '/' yields a leading empty component followed by at least one
good component (true of the default MEDIA_ROOT "/app/media"). -/
def isNormalRoot (root : List Char) : Bool :=
  match splitChar '/' root with
  | [] :: parts => !parts.isEmpty && parts.all (fun c => decide (goodComp c))
  | _ => false

theorem isNormalRoot_spec (root : List Char) (h : isNormalRoot root = true) :
    ∃ parts, parts ≠ [] ∧ (∀ c ∈ parts, goodComp c ∧ '/' ∉ c) ∧
      splitChar '/' root = [] :: parts ∧
      root = '/' :: joinChar '/' parts := by
  unfold isNormalRoot at h
  cases hs : splitChar '/' root with
  | nil => exact absurd hs (splitChar_ne_nil _ _)
  | cons first parts =>
    rw [hs] at h
    cases first with
    | cons a l => simp at h
    | nil =>
      rw [Bool.and_eq_true] at h
      have hne : parts ≠ [] := by
        intro hp
        rw [hp] at h
        simp at h
      have hall : ∀ c ∈ parts, goodComp c := by
        intro c hc
        have h2 := h.2
        rw [List.all_eq_true] at h2
        simpa using h2 c hc
      refine ⟨parts, hne, ?_, rfl, ?_⟩
      · intro c hc
        refine ⟨hall c hc, ?_⟩
        exact mem_splitChar_sepfree '/' root c (hs ▸ List.mem_cons_of_mem [] hc)
      · have hr : root = joinChar '/' (splitChar '/' root) :=
          (joinChar_splitChar '/' root).symm
        rw [hs] at hr
        cases parts with
        | nil => exact absurd rfl hne
        | cons p t =>
          rw [hr]
          rfl

/-- The shared safe-resolution primitive of `cdn` (app.py lines 99-104),
`_rel_to_full` (lines 150-158) and `media_delete` (lines 197-203):
normalize the candidate, join under the root, take the absolute path, and
accept only if it starts with the root followed by the separator. -/
def resolveUnder (cwd root cand : List Char) : Option (List Char) :=
  if ((abspath cwd root) ++ "/".toList).isPrefixOf
      (abspath cwd (pjoin root (normpath cand))) then
    some (abspath cwd (pjoin root (normpath cand)))
  else none

/-- Path resolution of the `/cdn/<relpath>` route (app.py lines 96-104). -/
def cdnResolve (cwd root relpath : List Char) : Option (List Char) :=
  resolveUnder cwd root relpath

/-- Model of `_rel_to_full` (app.py lines 150-158): lstrip slashes, then resolve. -/
def relToFull (cwd root relUrl : List Char) : Option (List Char) :=
  resolveUnder cwd root (relUrl.dropWhile (fun c => c = '/'))

theorem abspath_normalRoot (cwd root : List Char) (h : isNormalRoot root = true) :
    abspath cwd root = root := by
  obtain ⟨parts, hne, hgood, _, hrooteq⟩ := isNormalRoot_spec root h
  rw [hrooteq]
  unfold abspath
  rw [if_pos (by simp [List.isPrefixOf])]
  exact normpath_canonical parts hne hgood

theorem pjoin_abs (rt b : List Char) :
    ("/".toList).isPrefixOf (pjoin ('/' :: rt) b) = true := by
  unfold pjoin
  split
  next h => exact h
  next h =>
    split
    next h2 => simp [List.isPrefixOf]
    next h2 => simp [List.isPrefixOf]

theorem resolveUnder_descendant (cwd root cand full : List Char)
    (hroot : isNormalRoot root = true)
    (h : resolveUnder cwd root cand = some full) :
    (root ++ "/".toList).isPrefixOf full = true ∧ full ≠ root ∧
    ∃ extra, splitChar '/' full = splitChar '/' root ++ extra ∧ extra ≠ [] ∧
      ∀ c ∈ extra, goodComp c := by
  obtain ⟨parts, hpne, hgood, hsplitr, hrooteq⟩ := isNormalRoot_spec root hroot
  have hrabs : abspath cwd root = root := abspath_normalRoot cwd root hroot
  unfold resolveUnder at h
  rw [hrabs] at h
  split at h
  case isFalse => exact absurd h (by simp)
  case isTrue hchk =>
  have hfeq : abspath cwd (pjoin root (normpath cand)) = full := by
    injection h
  rw [hfeq] at hchk
  have habs : ("/".toList).isPrefixOf (pjoin root (normpath cand)) = true := by
    rw [hrooteq]; exact pjoin_abs _ (normpath cand)
  have hfull : full = normpath (pjoin root (normpath cand)) := by
    rw [← hfeq]
    unfold abspath
    rw [if_pos habs]
  obtain ⟨nc, hnc, hncgood⟩ := normpath_abs_shape (pjoin root (normpath cand)) habs
  rw [← hfull] at hnc
  obtain ⟨p1, prest, hparts⟩ : ∃ p1 prest, parts = p1 :: prest := by
    cases parts with
    | nil => exact absurd rfl hpne
    | cons p1 prest => exact ⟨p1, prest, rfl⟩
  obtain ⟨a, p1', hp1⟩ : ∃ a p1', p1 = a :: p1' := by
    cases p1 with
    | nil =>
      exact absurd rfl (hgood [] (hparts ▸ List.mem_cons_self _ _)).1.1
    | cons a p1' => exact ⟨a, p1', rfl⟩
  have hane : a ≠ '/' := by
    intro hcontra
    exact (hgood p1 (hparts ▸ List.mem_cons_self _ _)).2
      (hp1 ▸ hcontra ▸ List.mem_cons_self a p1')
  obtain ⟨w, hw⟩ := joinChar_head '/' a p1' prest
  have hrootshape : root = '/' :: a :: w := by
    rw [hrooteq, hparts, hp1, hw]
  have hpre : (root ++ "/".toList) <+: full :=
    (isPrefixOf_eq_true _ _).mp hchk
  rcases normSlashes_pos (pjoin root (normpath cand)) habs with hk | hk
  · -- one initial slash: full = '/' :: joinChar '/' nc
    rw [hk] at hnc
    have hnc1 : full = '/' :: joinChar '/' nc := by
      rw [hnc]; rfl
    cases hnccases : nc with
    | nil =>
      exfalso
      rw [hnccases] at hnc1
      have hlen := hpre.length_le
      rw [hnc1, hrootshape] at hlen
      simp [joinChar] at hlen
    | cons n1 nt =>
      have hncne : nc ≠ [] := by rw [hnccases]; simp
      have hncfree : ∀ c ∈ nc, '/' ∉ c := fun c hc => (hncgood c hc).2
      have hpre2 : (joinChar '/' parts ++ ['/']) <+: joinChar '/' nc := by
        have := hpre
        rw [hnc1, hrooteq] at this
        have hform : (('/' :: joinChar '/' parts) ++ "/".toList) =
            '/' :: (joinChar '/' parts ++ ['/']) := by simp
        rw [hform] at this
        exact (List.cons_prefix_cons.mp this).2
      obtain ⟨ex, hex, hexne⟩ := joinChar_extension parts nc hpne
        (fun c hc => (hgood c hc).2) hncfree hpre2
      have hsplitfull : splitChar '/' full = [] :: nc := by
        rw [hnc1, splitChar_cons_sep, splitChar_joinChar '/' nc hncne hncfree]
      refine ⟨hchk, ?_, ex, ?_, hexne, ?_⟩
      · intro hcontra
        rw [hcontra, hsplitr] at hsplitfull
        rw [hex] at hsplitfull
        have hlen := congrArg List.length hsplitfull
        simp at hlen
        exact hexne hlen
      · rw [hsplitfull, hsplitr, hex]
        rfl
      · intro c hc
        exact (hncgood c (hex ▸ List.mem_append_right parts hc)).1
  · -- two initial slashes: impossible under the prefix check
    exfalso
    rw [hk] at hnc
    have hnc2 : full = '/' :: '/' :: joinChar '/' nc := by
      rw [hnc]; rfl
    rw [hnc2, hrootshape] at hpre
    have hform : (('/' :: a :: w) ++ "/".toList) =
        '/' :: a :: (w ++ ['/']) := by simp
    rw [hform] at hpre
    have h1 := (List.cons_prefix_cons.mp hpre).2
    exact hane (List.cons_prefix_cons.mp h1).1

/-- Claim C1: for every client-supplied candidate string, path resolution
against a canonically-formed storage root (as both the `/cdn/` route and
`_rel_to_full` perform it) either fails, or returns a path that starts with
the root followed by '/' and is a strict descendant of the root: its
'/'-components extend the root's by at least one component, with no empty,
`.` or `..` component among the extension; the root itself is never
returned. -/
theorem C1_traversal_invariant (cwd root cand full : List Char)
    (hroot : isNormalRoot root = true)
    (h : cdnResolve cwd root cand = some full ∨
         relToFull cwd root cand = some full) :
    (root ++ "/".toList).isPrefixOf full = true ∧ full ≠ root ∧
    ∃ extra, splitChar '/' full = splitChar '/' root ++ extra ∧ extra ≠ [] ∧
      ∀ c ∈ extra, goodComp c := by
  rcases h with h | h
  · exact resolveUnder_descendant cwd root cand full hroot h
  · exact resolveUnder_descendant cwd root _ full hroot h

theorem C1_traversal_invariant_witness :
    (("/app/media".toList) ++ "/".toList).isPrefixOf
      ("/app/media/uploads/2024/05/a.mp4".toList) = true ∧
    ("/app/media/uploads/2024/05/a.mp4".toList) ≠ ("/app/media".toList) :=
  ⟨(C1_traversal_invariant ("/srv".toList) ("/app/media".toList)
      ("uploads/2024/05/a.mp4".toList)
      ("/app/media/uploads/2024/05/a.mp4".toList)
      (by decide) (Or.inl (by decide))).1,
   (C1_traversal_invariant ("/srv".toList) ("/app/media".toList)
      ("uploads/2024/05/a.mp4".toList)
      ("/app/media/uploads/2024/05/a.mp4".toList)
      (by decide) (Or.inl (by decide))).2.1⟩

/-- Parse of `re.match(r"bytes=(\d+)-(\d*)", rng)` (app.py line 113): the
pattern must match at the start of the string; trailing text is ignored;
the second group may be empty. -/
def parseRange (rng : List Char) : Option (Nat × Option Nat) :=
  if ("bytes=".toList).isPrefixOf rng then
    let rest := rng.drop 6
    let ds := rest.takeWhile Char.isDigit
    if ds = [] then none
    else
      match rest.drop ds.length with
      | c :: rest2 =>
        if c = '-' then
          let ds2 := rest2.takeWhile Char.isDigit
          some (natOfDigits ds, if ds2 = [] then none else some (natOfDigits ds2))
        else none
      | [] => none
  else none

/-- Loop guard of `_file_iter` (app.py line 86): stop when a finite
remaining count has been exhausted. -/
def stopRem : Option Int → Bool
  | some r => decide (r ≤ 0)
  | none => false

/-- Bytes requested from the file object per iteration (app.py line 88). -/
def readSize (remaining : Option Int) (chunk : Nat) : Nat :=
  match remaining with
  | none => chunk
  | some r => min chunk r.toNat

/-- Python `remaining -= len(data)` (app.py line 93). -/
def decRem (remaining : Option Int) (n : Nat) : Option Int :=
  match remaining with
  | none => none
  | some r => some (r - (n : Int))

/-- The generator `_file_iter` (app.py lines 81-94) as the list of chunks it
yields, reading from position `pos`; `f.read(n)` at position `pos` returns
`(file.drop pos).take n` and an empty read ends the loop. -/
def fileIterLoop (file : List Nat) (pos : Nat) (remaining : Option Int)
    (chunk : Nat) : List (List Nat) :=
  if stopRem remaining then []
  else if hd : ((file.drop pos).take (readSize remaining chunk)) = [] then []
  else ((file.drop pos).take (readSize remaining chunk)) ::
    fileIterLoop file (pos + ((file.drop pos).take (readSize remaining chunk)).length)
      (decRem remaining ((file.drop pos).take (readSize remaining chunk)).length) chunk
termination_by file.length - pos
decreasing_by
  have h1 : file.drop pos ≠ [] := by
    intro h; rw [h] at hd; simp at hd
  have h2 : pos < file.length := by
    by_contra hc
    push_neg at hc
    exact h1 (List.drop_eq_nil_iff.mpr hc)
  have h3 : 0 < ((file.drop pos).take (readSize remaining chunk)).length :=
    List.length_pos.mpr hd
  omega

/-- Model of `_file_iter(path, start, end)`: the loop starts with
`remaining = end - start + 1` when an end offset is given. -/
def fileIter (file : List Nat) (start : Nat) (endOpt : Option Int)
    (chunk : Nat) : List (List Nat) :=
  fileIterLoop file start (endOpt.map (fun e => e - (start : Int) + 1)) chunk

/-- Response of the `/cdn/` route as far as the spec's claims observe it:
status, the headers the code sets explicitly, the parsed bounds that appear
in `Content-Range`, and the streamed body chunks.  (The Content-Type header
comes from the external `guess_type` collaborator and is not modelled.) -/
structure RangeResp where
  status : Nat
  contentRange : Option (List Char)
  contentLength : Option Int
  acceptRanges : Bool
  cacheControl : Bool
  cors : Option (List Char)
  rangeStart : Option Nat
  rangeEnd : Option Int
  bodyChunks : List (List Nat)
deriving DecidableEq

/-- The bytes actually streamed to the client. -/
def RangeResp.body (r : RangeResp) : List Nat := r.bodyChunks.flatten

/-- Python `str(i)` for an integer. -/
def intStr (i : Int) : List Char :=
  if i < 0 then '-' :: Nat.toDigits 10 (-i).toNat else Nat.toDigits 10 i.toNat

/-- The f-string `f"bytes {start}-{end}/{file_size}"` (app.py line 121). -/
def crString (s : Nat) (e : Int) (size : Nat) : List Char :=
  "bytes ".toList ++ Nat.toDigits 10 s ++ "-".toList ++ intStr e ++
    "/".toList ++ Nat.toDigits 10 size

/-- Python `",".join(ALLOWED_ORIGINS) if ALLOWED_ORIGINS != ["*"] else "*"`. -/
def corsValue (origins : List (List Char)) : List Char :=
  if origins = ["*".toList] then "*".toList else joinChar ',' origins

/-- Model of `Response(status=416)` (app.py line 118): no body, no explicit headers. -/
def resp416 : RangeResp :=
  { status := 416, contentRange := none, contentLength := none,
    acceptRanges := false, cacheControl := false, cors := none,
    rangeStart := none, rangeEnd := none, bodyChunks := [] }

/-- The 206 partial-content response (app.py lines 119-127). -/
def resp206 (origins : List (List Char)) (file : List Nat) (s : Nat)
    (endI : Int) : RangeResp :=
  { status := 206
    contentRange := some (crString s endI file.length)
    contentLength := some (endI - (s : Int) + 1)
    acceptRanges := true
    cacheControl := true
    cors := some (corsValue origins)
    rangeStart := some s
    rangeEnd := some endI
    bodyChunks := fileIter file s (some endI) 8192 }

/-- Modelled from the spec: Flask's `send_file(conditional=True, ...)`
external collaborator in the NoRange state serves the full file with
status 200 and `Content-Length` = size; the route then sets Accept-Ranges,
Cache-Control and the CORS header on it (app.py lines 129-133). -/
def sendFileResp (origins : List (List Char)) (file : List Nat) : RangeResp :=
  { status := 200, contentRange := none,
    contentLength := some (file.length : Int),
    acceptRanges := true, cacheControl := true,
    cors := some (corsValue origins),
    rangeStart := none, rangeEnd := none, bodyChunks := [file] }

/-- Python `end = int(m.group(2)) if m.group(2) else file_size - 1` (line 116). -/
def rangeEndOf (file : List Nat) (eo : Option Nat) : Int :=
  match eo with
  | some e => (e : Int)
  | none => (file.length : Int) - 1

/-- Dispatch on the outcome of the Range-header match (app.py lines 114 and
117-127 versus 129-133). -/
def serveRangeCore (origins : List (List Char)) (file : List Nat) :
    Option (Nat × Option Nat) → RangeResp
  | some (s, eo) =>
    if file.length ≤ s then resp416
    else resp206 origins file s (rangeEndOf file eo)
  | none => sendFileResp origins file

/-- The range-serving logic of the `/cdn/` route (app.py lines 112-133),
given the file's bytes and the raw `Range` header value (`""` when the
header is absent).  `m = re.match(...) if rng else None`. -/
def serveRange (origins : List (List Char)) (file : List Nat)
    (rangeHeader : List Char) : RangeResp :=
  serveRangeCore origins file
    (if (pystrip rangeHeader).isEmpty then none
     else parseRange (pystrip rangeHeader))

theorem fileIterLoop_flatten (chunk : Nat) (hc : 0 < chunk) :
    ∀ (n : Nat) (file : List Nat) (pos : Nat) (r : Int), file.length - pos ≤ n →
      (fileIterLoop file pos (some r) chunk).flatten =
        (file.drop pos).take r.toNat := by
  intro n
  induction n with
  | zero =>
    intro file pos r hn
    have hdrop : file.drop pos = [] := List.drop_eq_nil_iff.mpr (by omega)
    rw [fileIterLoop]
    by_cases hstop : stopRem (some r) = true
    · rw [if_pos hstop]
      have hr : r ≤ 0 := by simpa [stopRem] using hstop
      rw [hdrop]
      simp
    · rw [if_neg hstop]
      rw [dif_pos (by rw [hdrop]; simp)]
      rw [hdrop]
      simp
  | succ n ih =>
    intro file pos r hn
    rw [fileIterLoop]
    by_cases hstop : stopRem (some r) = true
    · rw [if_pos hstop]
      have hr : r ≤ 0 := by simpa [stopRem] using hstop
      have hr0 : r.toNat = 0 := by omega
      rw [hr0]
      simp
    · rw [if_neg hstop]
      have hr : 0 < r := by
        have := hstop
        simp [stopRem] at this
        omega
      by_cases hd : ((file.drop pos).take (readSize (some r) chunk)) = []
      · rw [dif_pos hd]
        have hrs : 0 < readSize (some r) chunk := by
          simp [readSize]
          omega
        have hdrop : file.drop pos = [] := by
          rcases List.take_eq_nil_iff.mp hd with h | h
          · omega
          · exact h
        rw [hdrop]
        simp
      · rw [dif_neg hd]
        have hposlt : pos < file.length := by
          by_contra hcon
          push_neg at hcon
          exact hd (by rw [List.drop_eq_nil_iff.mpr hcon]; simp)
        have hdlenpos : 0 < ((file.drop pos).take (readSize (some r) chunk)).length :=
          List.length_pos.mpr hd
        have hdlenle : ((file.drop pos).take (readSize (some r) chunk)).length ≤
            readSize (some r) chunk := List.length_take_le _ _
        have hrsle : readSize (some r) chunk ≤ r.toNat := by
          simp only [readSize]
          exact min_le_right _ _
        have hdleneq : ((file.drop pos).take (readSize (some r) chunk)).length =
            min (readSize (some r) chunk) (file.length - pos) := by
          rw [List.length_take, List.length_drop]
        have hrec := ih file
          (pos + ((file.drop pos).take (readSize (some r) chunk)).length)
          (r - (((file.drop pos).take (readSize (some r) chunk)).length : Int))
          (by omega)
        rw [show decRem (some r) ((file.drop pos).take (readSize (some r) chunk)).length =
          some (r - (((file.drop pos).take (readSize (some r) chunk)).length : Int))
          from rfl]
        rw [List.flatten_cons, hrec]
        have htn : (r - (((file.drop pos).take (readSize (some r) chunk)).length : Int)).toNat =
            r.toNat - ((file.drop pos).take (readSize (some r) chunk)).length := by
          omega
        rw [htn]
        rcases Nat.lt_or_ge (file.length - pos) (readSize (some r) chunk) with hcase | hcase
        · -- the read exhausted the file: data is the whole tail
          have hdataeq : (file.drop pos).take (readSize (some r) chunk) = file.drop pos := by
            apply List.take_of_length_le
            rw [List.length_drop]
            omega
          rw [hdataeq]
          have hll : (file.drop pos).length = file.length - pos :=
            List.length_drop _ _
          have hdrop2 : file.drop (pos + (file.drop pos).length) = [] :=
            List.drop_eq_nil_iff.mpr (by omega)
          rw [hdrop2]
          have hfull : (file.drop pos).take r.toNat = file.drop pos := by
            apply List.take_of_length_le
            rw [List.length_drop]
            omega
          rw [hfull]
          simp
        · -- a full-size read: split the take
          have hdl : ((file.drop pos).take (readSize (some r) chunk)).length =
              readSize (some r) chunk := by omega
          have hsplit : (file.drop pos).take r.toNat =
              (file.drop pos).take (readSize (some r) chunk) ++
              ((file.drop pos).drop (readSize (some r) chunk)).take
                (r.toNat - readSize (some r) chunk) := by
            rw [← List.take_add]
            congr 1
            omega
          rw [hsplit, hdl]
          congr 1
          rw [List.drop_drop]

theorem fileIterLoop_chunkBound (chunk : Nat) :
    ∀ (n : Nat) (file : List Nat) (pos : Nat) (rem : Option Int),
      file.length - pos ≤ n →
      ∀ c ∈ fileIterLoop file pos rem chunk, c ≠ [] ∧ c.length ≤ chunk := by
  intro n
  induction n with
  | zero =>
    intro file pos rem hn c hcmem
    rw [fileIterLoop] at hcmem
    by_cases hstop : stopRem rem = true
    · rw [if_pos hstop] at hcmem
      simp at hcmem
    · rw [if_neg hstop] at hcmem
      have hdrop : file.drop pos = [] := List.drop_eq_nil_iff.mpr (by omega)
      rw [dif_pos (by rw [hdrop]; simp)] at hcmem
      simp at hcmem
  | succ n ih =>
    intro file pos rem hn c hcmem
    rw [fileIterLoop] at hcmem
    by_cases hstop : stopRem rem = true
    · rw [if_pos hstop] at hcmem
      simp at hcmem
    · rw [if_neg hstop] at hcmem
      by_cases hd : ((file.drop pos).take (readSize rem chunk)) = []
      · rw [dif_pos hd] at hcmem
        simp at hcmem
      · rw [dif_neg hd] at hcmem
        rcases List.mem_cons.mp hcmem with hcm | hcm
        · subst hcm
          refine ⟨hd, ?_⟩
          calc ((file.drop pos).take (readSize rem chunk)).length
              ≤ readSize rem chunk := List.length_take_le _ _
            _ ≤ chunk := by
                cases rem with
                | none => simp [readSize]
                | some r => simp only [readSize]; exact min_le_left _ _
        · have hposlt : pos < file.length := by
            by_contra hcon
            push_neg at hcon
            exact hd (by rw [List.drop_eq_nil_iff.mpr hcon]; simp)
          have hdlenpos : 0 < ((file.drop pos).take (readSize rem chunk)).length :=
            List.length_pos.mpr hd
          exact ih file _ _ (by omega) c hcm

theorem fileIter_flatten (file : List Nat) (s : Nat) (e : Int) :
    (fileIter file s (some e) 8192).flatten =
      (file.drop s).take (e - (s : Int) + 1).toNat := by
  unfold fileIter
  exact fileIterLoop_flatten 8192 (by omega) file.length file s _ (by omega)

theorem serveRange_parsed (origins : List (List Char)) (file : List Nat)
    (hdr : List Char) (s : Nat) (eo : Option Nat)
    (hp : parseRange (pystrip hdr) = some (s, eo)) :
    serveRange origins file hdr =
      (if file.length ≤ s then resp416
       else resp206 origins file s (rangeEndOf file eo)) := by
  unfold serveRange
  have hne : (pystrip hdr).isEmpty = false := by
    cases hh : pystrip hdr with
    | nil =>
      rw [hh] at hp
      have hnone : parseRange [] = none := rfl
      rw [hnone] at hp
      exact Option.noConfusion hp
    | cons a t => simp
  have hscrut : (if (pystrip hdr).isEmpty = true then none
      else parseRange (pystrip hdr)) = some (s, eo) := by
    rw [hne]
    simpa using hp
  rw [hscrut]
  rfl

theorem serveRange_noParse (origins : List (List Char)) (file : List Nat)
    (hdr : List Char) (hp : parseRange (pystrip hdr) = none) :
    serveRange origins file hdr = sendFileResp origins file := by
  unfold serveRange
  have hscrut : (if (pystrip hdr).isEmpty = true then none
      else parseRange (pystrip hdr)) = none := by
    by_cases hh : (pystrip hdr).isEmpty = true
    · rw [hh]; simp
    · simp only [hh]
      simpa using hp
  rw [hscrut]
  rfl

/-- Claim C2 (amended): for a nonempty file (1 ≤ S), `bytes=0-` is answered
206 with Content-Length = S and the whole file as body; on a 100-byte file,
`bytes=10-19` is answered 206 with exactly the 10 bytes at offsets 10..19,
`Content-Range: bytes 10-19/100` and Content-Length 10; `bytes=200-` on that
file is answered 416 with an empty body.  (On an empty file, S = 0, the code
answers `bytes=0-` with 416 instead — see the counterexample.) -/
theorem C2_range_correctness (origins : List (List Char))
    (file file100 : List Nat) (h1 : 1 ≤ file.length)
    (h100 : file100.length = 100) :
    ((serveRange origins file ("bytes=0-".toList)).status = 206 ∧
     (serveRange origins file ("bytes=0-".toList)).contentLength =
       some (file.length : Int) ∧
     (serveRange origins file ("bytes=0-".toList)).body = file) ∧
    ((serveRange origins file100 ("bytes=10-19".toList)).status = 206 ∧
     (serveRange origins file100 ("bytes=10-19".toList)).body =
       (file100.drop 10).take 10 ∧
     (serveRange origins file100 ("bytes=10-19".toList)).body.length = 10 ∧
     (serveRange origins file100 ("bytes=10-19".toList)).contentLength =
       some 10 ∧
     (serveRange origins file100 ("bytes=10-19".toList)).contentRange =
       some ("bytes 10-19/100".toList)) ∧
    ((serveRange origins file100 ("bytes=200-".toList)).status = 416 ∧
     (serveRange origins file100 ("bytes=200-".toList)).body = []) := by
  refine ⟨?_, ?_, ?_⟩
  · have hp : parseRange (pystrip ("bytes=0-".toList)) = some (0, none) := by
      decide
    rw [serveRange_parsed origins file _ 0 none hp, if_neg (by omega)]
    refine ⟨rfl, ?_, ?_⟩
    · show some ((rangeEndOf file none) - ((0 : Nat) : Int) + 1) = _
      have : (rangeEndOf file none) - ((0 : Nat) : Int) + 1 = (file.length : Int) := by
        simp only [rangeEndOf]
        omega
      rw [this]
    · show (fileIter file 0 (some (rangeEndOf file none)) 8192).flatten = file
      rw [show rangeEndOf file none = (file.length : Int) - 1 from rfl]
      rw [fileIter_flatten]
      have : ((file.length : Int) - 1 - ((0 : Nat) : Int) + 1).toNat = file.length := by
        omega
      rw [this, List.drop_zero, List.take_length]
  · have hp : parseRange (pystrip ("bytes=10-19".toList)) = some (10, some 19) := by
      decide
    rw [serveRange_parsed origins file100 _ 10 (some 19) hp, if_neg (by omega)]
    have hbody : (resp206 origins file100 10 (rangeEndOf file100 (some 19))).body =
        (file100.drop 10).take 10 := by
      show (fileIter file100 10 (some (rangeEndOf file100 (some 19))) 8192).flatten = _
      rw [show rangeEndOf file100 (some 19) = (19 : Int) from rfl, fileIter_flatten]
      have h10 : ((19 : Int) - ((10 : Nat) : Int) + 1).toNat = 10 := by
        norm_num
        decide
      rw [h10]
    refine ⟨rfl, hbody, ?_, ?_, ?_⟩
    · rw [hbody, List.length_take, List.length_drop, h100]
      decide
    · show some ((rangeEndOf file100 (some 19)) - ((10 : Nat) : Int) + 1) = _
      rw [show rangeEndOf file100 (some 19) = (19 : Int) from rfl]
      norm_num
    · show some (crString 10 (rangeEndOf file100 (some 19)) file100.length) = _
      rw [show rangeEndOf file100 (some 19) = (19 : Int) from rfl, h100]
      rfl
  · have hp : parseRange (pystrip ("bytes=200-".toList)) = some (200, none) := by
      decide
    rw [serveRange_parsed origins file100 _ 200 none hp, if_pos (by omega)]
    exact ⟨rfl, rfl⟩

/-- Claim C2 counterexample: on an empty regular file (size S = 0),
requesting `bytes=0-` is answered 416 — neither 206 nor 200 — because
`start >= file_size` already holds at start = 0; the claim's statement
fails at S = 0. -/
theorem C2_range_correctness_counterexample :
    (serveRange [("*".toList)] ([] : List Nat) ("bytes=0-".toList)).status = 416 ∧
    ¬((serveRange [("*".toList)] ([] : List Nat) ("bytes=0-".toList)).status = 206 ∨
      (serveRange [("*".toList)] ([] : List Nat) ("bytes=0-".toList)).status = 200) := by
  refine ⟨?_, ?_⟩ <;> decide

theorem C2_range_correctness_witness :
    (serveRange [("*".toList)] (List.range 100) ("bytes=10-19".toList)).status = 206 ∧
    (serveRange [("*".toList)] (List.range 100) ("bytes=10-19".toList)).contentRange =
      some ("bytes 10-19/100".toList) :=
  ⟨(C2_range_correctness [("*".toList)] (List.range 100) (List.range 100)
      (by simp) (by simp)).2.1.1,
   (C2_range_correctness [("*".toList)] (List.range 100) (List.range 100)
      (by simp) (by simp)).2.1.2.2.2.2⟩

/-- Claim C4 (amended): an answered 206 has 0 ≤ start < file_size (start is
a parsed nonnegative integer) with exactly the parsed bounds, and a request
with start ≥ file_size is answered 416 with an empty body; the claimed
upper bounds start ≤ end and end < file_size are not enforced (see the
counterexample). -/
theorem C4_range_bounds_amended (origins : List (List Char)) (file : List Nat)
    (hdr : List Char) (s : Nat) (eo : Option Nat)
    (hp : parseRange (pystrip hdr) = some (s, eo)) :
    (s < file.length →
      (serveRange origins file hdr).status = 206 ∧
      (serveRange origins file hdr).rangeStart = some s ∧
      (serveRange origins file hdr).rangeEnd = some (rangeEndOf file eo)) ∧
    (file.length ≤ s →
      (serveRange origins file hdr).status = 416 ∧
      (serveRange origins file hdr).body = []) := by
  rw [serveRange_parsed origins file hdr s eo hp]
  constructor
  · intro hlt
    rw [if_neg (by omega)]
    exact ⟨rfl, rfl, rfl⟩
  · intro hge
    rw [if_pos hge]
    exact ⟨rfl, rfl⟩

/-- Claim C4 counterexample: on a 100-byte file, `bytes=10-5` is answered
206 with start = 10 > end = 5, and `bytes=0-1000` is answered 206 with
end = 1000 ≥ file_size = 100, so the claimed invariant
0 ≤ start ≤ end < file_size fails on accepted 206 answers. -/
theorem C4_range_bounds_counterexample :
    ((serveRange [("*".toList)] (List.range 100) ("bytes=10-5".toList)).status = 206 ∧
     (serveRange [("*".toList)] (List.range 100) ("bytes=10-5".toList)).rangeStart =
       some 10 ∧
     (serveRange [("*".toList)] (List.range 100) ("bytes=10-5".toList)).rangeEnd =
       some 5 ∧
     ¬((10 : Int) ≤ (5 : Int))) ∧
    ((serveRange [("*".toList)] (List.range 100) ("bytes=0-1000".toList)).status = 206 ∧
     (serveRange [("*".toList)] (List.range 100) ("bytes=0-1000".toList)).rangeEnd =
       some 1000 ∧
     ¬((1000 : Int) < ((List.range 100).length : Int))) := by
  refine ⟨⟨?_, ?_, ?_, ?_⟩, ?_, ?_, ?_⟩ <;> decide

theorem C4_range_bounds_witness :
    (serveRange [("*".toList)] (List.range 100) ("bytes=200-".toList)).status = 416 :=
  ((C4_range_bounds_amended [("*".toList)] (List.range 100) ("bytes=200-".toList)
    200 none (by decide)).2 (by decide)).1

/-- Claim C7: any Range header whose stripped value does not match
`bytes=<digits>-<optional digits>` is handled exactly like the no-header
case: the same full-content 200 response, with the whole file as body and
Accept-Ranges, Cache-Control and CORS headers set; the parse failure is
never surfaced as an error response. -/
theorem C7_malformed_range_fallback (origins : List (List Char))
    (file : List Nat) (hdr : List Char)
    (hp : parseRange (pystrip hdr) = none) :
    serveRange origins file hdr = serveRange origins file [] ∧
    (serveRange origins file hdr).status = 200 ∧
    (serveRange origins file hdr).body = file ∧
    (serveRange origins file hdr).acceptRanges = true ∧
    (serveRange origins file hdr).cacheControl = true ∧
    (serveRange origins file hdr).cors = some (corsValue origins) := by
  have h1 := serveRange_noParse origins file hdr hp
  have h2 : serveRange origins file [] = sendFileResp origins file :=
    serveRange_noParse origins file [] (by decide)
  rw [h1, h2]
  refine ⟨rfl, rfl, ?_, rfl, rfl, rfl⟩
  simp [sendFileResp, RangeResp.body]

theorem C7_malformed_range_fallback_witness :
    serveRange [("*".toList)] [0, 1, 2] ("bytes=-500".toList) =
      serveRange [("*".toList)] [0, 1, 2] [] :=
  (C7_malformed_range_fallback [("*".toList)] [0, 1, 2]
    ("bytes=-500".toList) (by decide)).1

/-- Claim C10: the 206 body stream never yields bytes beyond the end of the
file — it is exactly the file's bytes from the parsed start through
min(end, size-1), delivered in nonempty chunks of at most 8192 bytes — and
when end ≥ file_size the streamed byte count is file_size - start, strictly
smaller than the declared Content-Length end - start + 1. -/
theorem C10_stream_bounded (origins : List (List Char)) (file : List Nat)
    (hdr : List Char) (s : Nat) (e : Int)
    (h206 : (serveRange origins file hdr).status = 206)
    (hs : (serveRange origins file hdr).rangeStart = some s)
    (he : (serveRange origins file hdr).rangeEnd = some e) :
    (serveRange origins file hdr).body =
      (file.drop s).take (e - (s : Int) + 1).toNat ∧
    (∀ c ∈ (serveRange origins file hdr).bodyChunks, c ≠ [] ∧ c.length ≤ 8192) ∧
    ((file.length : Int) ≤ e →
      (serveRange origins file hdr).body.length = file.length - s ∧
      (((serveRange origins file hdr).body.length : Int) < e - (s : Int) + 1)) := by
  cases hq : (if (pystrip hdr).isEmpty = true then none
      else parseRange (pystrip hdr)) with
  | none =>
    exfalso
    unfold serveRange at h206
    rw [hq] at h206
    simp [serveRangeCore, sendFileResp] at h206
  | some p =>
    obtain ⟨s', eo⟩ := p
    unfold serveRange at h206 hs he ⊢
    rw [hq] at h206 hs he ⊢
    rw [show serveRangeCore origins file (some (s', eo)) =
      (if file.length ≤ s' then resp416
       else resp206 origins file s' (rangeEndOf file eo)) from rfl]
      at h206 hs he ⊢
    by_cases hlt : file.length ≤ s'
    · rw [if_pos hlt] at h206
      simp [resp416] at h206
    · rw [if_neg hlt] at h206 hs he ⊢
      have hs' : s' = s := by simpa [resp206] using hs
      have he' : rangeEndOf file eo = e := by simpa [resp206] using he
      rw [hs', he']
      have hbody : (resp206 origins file s e).body =
          (file.drop s).take (e - (s : Int) + 1).toNat := by
        show (fileIter file s (some e) 8192).flatten = _
        exact fileIter_flatten file s e
      refine ⟨hbody, ?_, ?_⟩
      · intro c hc
        have hc2 : c ∈ fileIterLoop file s
            ((some e).map (fun x => x - (s : Int) + 1)) 8192 := hc
        exact fileIterLoop_chunkBound 8192 file.length file s _ (by omega) c hc2
      · intro hbig
        push_neg at hlt
        rw [hbody, List.length_take, List.length_drop]
        constructor
        · omega
        · omega

theorem C10_stream_bounded_witness :
    (serveRange [("*".toList)] [1, 2, 3, 4, 5] ("bytes=1-9".toList)).body =
      (([1, 2, 3, 4, 5] : List Nat).drop 1).take
        ((9 : Int) - ((1 : Nat) : Int) + 1).toNat :=
  (C10_stream_bounded [("*".toList)] [1, 2, 3, 4, 5] ("bytes=1-9".toList) 1 9
    (by decide) (by decide) (by decide)).1

theorem dropWhile_eq_self_of_head (p : Char → Bool) (l : List Char)
    (h : ∀ c, l.head? = some c → p c = false) : l.dropWhile p = l := by
  cases l with
  | nil => rfl
  | cons a t =>
    rw [List.dropWhile_cons, h a rfl]
    simp

theorem pystrip_eq_self (l : List Char)
    (hhead : ∀ c, l.head? = some c → isSpaceC c = false)
    (hlast : noTrailingSpace l = true) : pystrip l = l := by
  unfold pystrip
  rw [dropWhile_eq_self_of_head _ l hhead]
  rw [dropWhile_eq_self_of_head _ l.reverse ?_]
  · exact List.reverse_reverse l
  · intro c hc
    rw [List.head?_reverse] at hc
    unfold noTrailingSpace at hlast
    rw [hc] at hlast
    simpa using hlast

theorem rstripSlash_eq_self (l : List Char) (h : l.getLast? ≠ some '/') :
    rstripSlash l = l := by
  unfold rstripSlash
  rw [dropWhile_eq_self_of_head _ l.reverse ?_]
  · exact List.reverse_reverse l
  · intro c hc
    rw [List.head?_reverse] at hc
    by_cases hcc : c = '/'
    · exact absurd (hcc ▸ hc) h
    · exact decide_eq_false hcc

/-- Core of `_to_rel_url` on the already-stripped input: strip the
configured base URL (rstripped of trailing slashes) when the input carries
an HTTP scheme and the base matches at the start, then require the result
to begin with `/cdn/` (app.py lines 140-148); `none` is the ValueError. -/
def toRelUrlCore (baseURL s0 : List Char) : Option (List Char) :=
  if ("http://".toList).isPrefixOf s0 || ("https://".toList).isPrefixOf s0 then
    if (rstripSlash baseURL).isPrefixOf s0 then
      (if ("/cdn/".toList).isPrefixOf (s0.drop (rstripSlash baseURL).length)
       then some (s0.drop (rstripSlash baseURL).length)
       else none)
    else
      (if ("/cdn/".toList).isPrefixOf s0 then some s0 else none)
  else
    (if ("/cdn/".toList).isPrefixOf s0 then some s0 else none)

/-- Model of `_to_rel_url` (app.py lines 135-148). -/
def toRelUrl (baseURL urlOrRel : List Char) : Option (List Char) :=
  toRelUrlCore baseURL (pystrip urlOrRel)

/-- Claim C3 counterexample: with the configured public base URL
`"https://h/"` (trailing slash) and the canonical path
`p = "/cdn/uploads/2024/05/file-00000000.mp4"`, converting the public URL
`base ++ p` back fails (ValueError) instead of returning `p`: after
stripping the rstripped base `"https://h"`, the remainder `"//cdn/..."`
does not start with `"/cdn/"`.  So the round-trip does not hold for every
configured base URL string. -/
theorem C3_roundtrip_counterexample :
    toRelUrl ("https://h/".toList)
        (("https://h/".toList) ++ ("/cdn/uploads/2024/05/file-00000000.mp4".toList)) ≠
      some ("/cdn/uploads/2024/05/file-00000000.mp4".toList) ∧
    toRelUrl ("https://h/".toList)
        (("https://h/".toList) ++ ("/cdn/uploads/2024/05/file-00000000.mp4".toList)) =
      none := by
  refine ⟨by decide, by decide⟩

/-- Claim C3 (amended): the round-trip `toRelUrl(base ++ p) = p` holds
whenever the configured base URL starts with `http://` or `https://` and
has no trailing slash (true of the default configuration), for every
canonical path `p` (starting `/cdn/` and not ending in whitespace); and
`toRelUrl(p) = p` holds for every configured base URL string. -/
theorem C3_roundtrip_amended (baseURL anyBase p : List Char)
    (hb : ("http://".toList).isPrefixOf baseURL = true ∨
          ("https://".toList).isPrefixOf baseURL = true)
    (hbs : baseURL.getLast? ≠ some '/')
    (hp : ("/cdn/".toList).isPrefixOf p = true)
    (hps : noTrailingSpace p = true) :
    toRelUrl baseURL (baseURL ++ p) = some p ∧
    toRelUrl anyBase p = some p := by
  obtain ⟨tp, htp⟩ := (isPrefixOf_eq_true _ _).mp hp
  have hpne : p ≠ [] := by rw [← htp]; simp
  have hphead : p.head? = some '/' := by rw [← htp]; rfl
  have hgl : p.getLast? = some (p.getLast hpne) :=
    List.getLast?_eq_getLast_of_ne_nil hpne
  have hplast : isSpaceC (p.getLast hpne) = false := by
    unfold noTrailingSpace at hps
    rw [hgl] at hps
    simpa using hps
  have hstrip_p : pystrip p = p := by
    apply pystrip_eq_self
    · intro c hc
      rw [hphead] at hc
      cases hc
      decide
    · exact hps
  constructor
  · -- full public URL
    have hbhead : ∃ bt, baseURL = 'h' :: bt := by
      rcases hb with hb | hb
      · obtain ⟨tb, htb⟩ := (isPrefixOf_eq_true _ _).mp hb
        exact ⟨"ttp://".toList ++ tb, by rw [← htb]; rfl⟩
      · obtain ⟨tb, htb⟩ := (isPrefixOf_eq_true _ _).mp hb
        exact ⟨"ttps://".toList ++ tb, by rw [← htb]; rfl⟩
    obtain ⟨bt, hbt⟩ := hbhead
    have hstrip_bp : pystrip (baseURL ++ p) = baseURL ++ p := by
      apply pystrip_eq_self
      · intro c hc
        rw [hbt] at hc
        simp at hc
        rw [← hc]
        decide
      · unfold noTrailingSpace
        rw [List.getLast?_append, hgl]
        simpa using hplast
    unfold toRelUrl
    rw [hstrip_bp]
    unfold toRelUrlCore
    have hhttp : (("http://".toList).isPrefixOf (baseURL ++ p) ||
        ("https://".toList).isPrefixOf (baseURL ++ p)) = true := by
      rw [Bool.or_eq_true]
      rcases hb with hb | hb
      · exact Or.inl ((isPrefixOf_eq_true _ _).mpr
          (((isPrefixOf_eq_true _ _).mp hb).trans (List.prefix_append baseURL p)))
      · exact Or.inr ((isPrefixOf_eq_true _ _).mpr
          (((isPrefixOf_eq_true _ _).mp hb).trans (List.prefix_append baseURL p)))
    rw [if_pos hhttp]
    rw [rstripSlash_eq_self baseURL hbs]
    rw [if_pos ((isPrefixOf_eq_true _ _).mpr (List.prefix_append baseURL p))]
    rw [List.drop_left]
    rw [if_pos hp]
  · -- already-canonical path
    unfold toRelUrl
    rw [hstrip_p]
    unfold toRelUrlCore
    have hhttp : (("http://".toList).isPrefixOf p ||
        ("https://".toList).isPrefixOf p) = false := by
      rw [← htp]
      rfl
    rw [hhttp]
    simp only [Bool.false_eq_true, if_false]
    rw [if_pos hp]

theorem C3_roundtrip_amended_witness :
    toRelUrl ("https://storage.grupoupper.com.br".toList)
        (("https://storage.grupoupper.com.br".toList) ++
          ("/cdn/uploads/2024/05/file-00000000.mp4".toList)) =
      some ("/cdn/uploads/2024/05/file-00000000.mp4".toList) :=
  (C3_roundtrip_amended ("https://storage.grupoupper.com.br".toList)
    ([] : List Char) ("/cdn/uploads/2024/05/file-00000000.mp4".toList)
    (Or.inr (by decide)) (by decide) (by decide) (by decide)).1

/-- The filesystem: regular files (absolute path, content) and directories
(absolute paths).  This is the only state the handlers touch. -/
structure FS where
  files : List (List Char × List Nat)
  dirs : List (List Char)
deriving DecidableEq

/-- Read back a stored file's bytes. -/
def lookupFile (fs : FS) (p : List Char) : Option (List Nat) :=
  (fs.files.find? (fun e => e.1 = p)).map Prod.snd

/-- Model of `os.path.isfile`. -/
def isFile (fs : FS) (p : List Char) : Bool :=
  (fs.files.find? (fun e => e.1 = p)).isSome

/-- Model of `f.save(fullpath)` (app.py line 59): write the payload, overwriting any
existing file at that path. -/
def saveFile (fs : FS) (p : List Char) (content : List Nat) : FS :=
  { fs with files := fs.files.filter (fun e => ¬ e.1 = p) ++ [(p, content)] }

/-- Model of `os.remove` (app.py line 206). -/
def removeFile (fs : FS) (p : List Char) : FS :=
  { fs with files := fs.files.filter (fun e => ¬ e.1 = p) }

/-- Model of `os.rmdir` (app.py line 212; only reached on an empty directory). -/
def removeDir (fs : FS) (d : List Char) : FS :=
  { fs with dirs := fs.dirs.erase d }

/-- Create a directory if absent (one level of `os.makedirs(exist_ok=True)`). -/
def addDir (fs : FS) (d : List Char) : FS :=
  if d ∈ fs.dirs then fs else { fs with dirs := fs.dirs ++ [d] }

/-- Python `not os.listdir(parent)` (app.py line 211): no file or directory has
`parent` as its dirname. -/
def emptyDir (fs : FS) (d : List Char) : Bool :=
  fs.files.all (fun e => ¬ dirname e.1 = d) &&
  fs.dirs.all (fun x => ¬ dirname x = d)

/-- The pruning loop of `media_delete` (app.py lines 208-217): walk upward
at most `n` levels, removing a directory only when it exists and is empty,
stopping at the first non-empty or missing ancestor. -/
def pruneLoop : FS → List Char → Nat → FS
  | fs, _, 0 => fs
  | fs, parent, Nat.succ k =>
    if parent ∈ fs.dirs ∧ emptyDir fs parent = true then
      pruneLoop (removeDir fs parent) (dirname parent) k
    else fs

/-- The chain of directories the pruning loop may visit. -/
def pruneChain : List Char → Nat → List (List Char)
  | _, 0 => []
  | parent, Nat.succ k => parent :: pruneChain (dirname parent) k

structure DeleteResp where
  status : Nat
  okFlag : Bool
  deleted : Option (List Char)
  errorMsg : Option (List Char)
deriving DecidableEq

def delRespMissing : DeleteResp :=
  { status := 400, okFlag := false, deleted := none,
    errorMsg := some ("missing url or rel_url".toList) }

def delRespBadPath : DeleteResp :=
  { status := 400, okFlag := false, deleted := none,
    errorMsg := some ("path must start with /cdn/".toList) }

def delRespForbidden : DeleteResp :=
  { status := 403, okFlag := false, deleted := none,
    errorMsg := some ("forbidden path".toList) }

def delRespNotFound : DeleteResp :=
  { status := 404, okFlag := false, deleted := none,
    errorMsg := some ("file not found".toList) }

/-- Base-URL stripping of `media_delete` (app.py lines 189-193): when the
input carries an HTTP scheme, strip the rstripped PUBLIC_BASE_URL if it
matches at the start. -/
def stripBase (baseURL s0 : List Char) : List Char :=
  if ("http://".toList).isPrefixOf s0 || ("https://".toList).isPrefixOf s0 then
    (if (rstripSlash baseURL).isPrefixOf s0 then
       s0.drop (rstripSlash baseURL).length
     else s0)
  else s0

/-- Tail of `media_delete` after traversal resolution (app.py lines
202-221): 403 when resolution fails, else delete-and-prune or 404; a
success reports `"/" + rel`, the unnormalized stripped input. -/
def mediaDeleteCore (fs : FS) (rel : List Char) :
    Option (List Char) → DeleteResp × FS
  | none => (delRespForbidden, fs)
  | some fullAbs =>
    if isFile fs fullAbs then
      ({ status := 200, okFlag := true, deleted := some ('/' :: rel),
         errorMsg := none },
       pruneLoop (removeFile fs fullAbs) (dirname fullAbs) 3)
    else (delRespNotFound, fs)

/-- The `media_delete` handler (app.py lines 183-221), after auth and body
extraction: `input` is the supplied `url`/`rel_url` value. -/
def mediaDelete (baseURL cwd root : List Char) (fs : FS)
    (input : List Char) : DeleteResp × FS :=
  if pystrip input = [] then (delRespMissing, fs)
  else if ("/cdn/".toList).isPrefixOf (stripBase baseURL (pystrip input)) = false
  then (delRespBadPath, fs)
  else
    mediaDeleteCore fs
      ((stripBase baseURL (pystrip input)).dropWhile (fun c => c = '/'))
      (resolveUnder cwd root
        ((stripBase baseURL (pystrip input)).dropWhile (fun c => c = '/')))

/-- Configuration and external collaborators of the upload handler:
the allow-set, the UTC year/month strings, the random 8-hex suffix,
werkzeug's `secure_filename`, `imghdr.what` applied to the stored bytes,
and `mimetypes.guess_type` applied to the destination path. -/
structure UploadCtx where
  allowedExt : List (List Char)
  year : List Char
  month : List Char
  uuid8 : List Char
  secure : List Char → List Char
  sniff : List Nat → Option (List Char)
  mimeOf : List Char → Option (List Char)
  root : List Char
  baseURL : List Char

/-- Python `filename.rsplit(".", 1)[1]`: the part after the last dot. -/
def afterLastDot (s : List Char) : List Char :=
  (s.reverse.takeWhile (fun c => ¬ c = '.')).reverse

/-- Model of `_allowed_file` (app.py lines 26-27). -/
def allowedFile (allowed : List (List Char)) (filename : List Char) : Bool :=
  filename.contains '.' && allowed.contains (lowerS (afterLastDot filename))

/-- Model of `os.path.splitext(p)[0]` per CPython: split at the last dot of the last
path segment, unless the basename consists only of leading dots. -/
def splitextRoot (p : List Char) : List Char :=
  if (((p.drop ((p.reverse.dropWhile (fun c => ¬ c = '/')).reverse).length).reverse.dropWhile
      (fun c => ¬ c = '.')).reverse) = [] then p
  else if ((((p.drop ((p.reverse.dropWhile (fun c => ¬ c = '/')).reverse).length).reverse.dropWhile
      (fun c => ¬ c = '.')).reverse).dropLast).all (fun c => c = '.') then p
  else ((p.reverse.dropWhile (fun c => ¬ c = '/')).reverse) ++
    ((((p.drop ((p.reverse.dropWhile (fun c => ¬ c = '/')).reverse).length).reverse.dropWhile
      (fun c => ¬ c = '.')).reverse).dropLast)

/-- Python `os.path.join(MEDIA_ROOT, "uploads", year, month)` (app.py line 53). -/
def uploadSubdir (ctx : UploadCtx) : List Char :=
  pjoin (pjoin (pjoin ctx.root ("uploads".toList)) ctx.year) ctx.month

/-- Python `secure_filename(os.path.splitext(filename)[0])[:80] or "file"`. -/
def uploadBase (ctx : UploadCtx) (fname : List Char) : List Char :=
  if (ctx.secure (splitextRoot fname)).take 80 = [] then "file".toList
  else (ctx.secure (splitextRoot fname)).take 80

/-- Python f-string composing the stored filename, base-uuid8.ext (app.py line 57). -/
def uploadFilename (ctx : UploadCtx) (fname : List Char) : List Char :=
  uploadBase ctx fname ++ "-".toList ++ ctx.uuid8 ++ ".".toList ++
    lowerS (afterLastDot fname)

/-- Python `os.path.join(subdir, filename)` (app.py line 58). -/
def uploadFullpath (ctx : UploadCtx) (fname : List Char) : List Char :=
  pjoin (uploadSubdir ctx) (uploadFilename ctx fname)

/-- Python f-string composing the canonical relative URL, /cdn/uploads/YYYY/MM/filename (app.py line 74). -/
def uploadRelUrl (ctx : UploadCtx) (fname : List Char) : List Char :=
  "/cdn/uploads/".toList ++ ctx.year ++ "/".toList ++ ctx.month ++
    "/".toList ++ uploadFilename ctx fname

/-- Python `os.makedirs(subdir, exist_ok=True)` (app.py line 54): create the
missing directories of the partition chain under the storage root. -/
def makedirsUploads (fs : FS) (ctx : UploadCtx) : FS :=
  addDir (addDir (addDir fs (pjoin ctx.root ("uploads".toList)))
    (pjoin (pjoin ctx.root ("uploads".toList)) ctx.year)) (uploadSubdir ctx)

structure UploadResp where
  status : Nat
  okFlag : Bool
  errorMsg : Option (List Char)
  url : Option (List Char)
  relUrl : Option (List Char)
  mime : Option (List Char)
  size : Option Nat
deriving DecidableEq

def uploadRespFileMissing : UploadResp :=
  { status := 400, okFlag := false, errorMsg := some ("file missing".toList),
    url := none, relUrl := none, mime := none, size := none }

def uploadRespExtNotAllowed : UploadResp :=
  { status := 400, okFlag := false,
    errorMsg := some ("file extension not allowed".toList),
    url := none, relUrl := none, mime := none, size := none }

def uploadRespInvalidImage : UploadResp :=
  { status := 400, okFlag := false,
    errorMsg := some ("invalid image".toList),
    url := none, relUrl := none, mime := none, size := none }

/-- The 200 payload of a successful upload (app.py lines 74-79). -/
def uploadOkResp (ctx : UploadCtx) (fname : List Char)
    (content : List Nat) : UploadResp :=
  { status := 200, okFlag := true, errorMsg := none,
    url := some (ctx.baseURL ++ uploadRelUrl ctx fname),
    relUrl := some (uploadRelUrl ctx fname),
    mime := some (match ctx.mimeOf (uploadFullpath ctx fname) with
      | some m => m
      | none => "application/octet-stream".toList),
    size := some content.length }

/-- The `media_upload` handler (app.py lines 44-79) after auth: reject a
missing or empty filename, then the extension allow-list; only then create
the partition directories and save the payload; afterwards, for a declared
jpg/jpeg/png (webp is exempt), a failed `imghdr` classification returns the
invalid-image error - with the file already saved and kept. -/
def mediaUpload (ctx : UploadCtx) (fs : FS) (fname : List Char)
    (content : List Nat) : UploadResp × FS :=
  if fname = [] then (uploadRespFileMissing, fs)
  else if allowedFile ctx.allowedExt fname = false then
    (uploadRespExtNotAllowed, fs)
  else if lowerS (afterLastDot fname) ∈
      ["jpg".toList, "jpeg".toList, "png".toList, "webp".toList] ∧
      lowerS (afterLastDot fname) ≠ "webp".toList ∧ ctx.sniff content = none
  then (uploadRespInvalidImage,
        saveFile (makedirsUploads fs ctx) (uploadFullpath ctx fname) content)
  else (uploadOkResp ctx fname content,
        saveFile (makedirsUploads fs ctx) (uploadFullpath ctx fname) content)

/-- The default `ALLOWED_MEDIA_EXT` configuration (app.py line 15). -/
def defaultAllowedExt : List (List Char) :=
  ["mp4".toList, "webm".toList, "mov".toList, "m4v".toList, "avi".toList,
   "jpg".toList, "jpeg".toList, "png".toList, "webp".toList]

/-- A concrete ingestion context with the default configuration; the
external collaborators are instantiated with simple total functions (an
identity sanitizer and a classifier that fails on every payload). -/
def defaultCtx : UploadCtx :=
  { allowedExt := defaultAllowedExt, year := "2024".toList,
    month := "05".toList, uuid8 := "00000000".toList,
    secure := fun s => s, sniff := fun _ => none, mimeOf := fun _ => none,
    root := "/app/media".toList,
    baseURL := "https://storage.grupoupper.com.br".toList }

theorem lookupFile_saveFile (fs : FS) (p : List Char) (content : List Nat) :
    lookupFile (saveFile fs p content) p = some content := by
  unfold lookupFile saveFile
  have h : ∀ l : List (List Char × List Nat),
      (((l.filter (fun e => ¬ e.1 = p)) ++ [(p, content)]).find?
        (fun e => e.1 = p)).map Prod.snd = some content := by
    intro l
    induction l with
    | nil => simp [List.find?]
    | cons x t ih =>
      rw [List.filter_cons]
      by_cases hx : x.1 = p
      · rw [if_neg (by simp [hx])]
        exact ih
      · rw [if_pos (by simp [hx])]
        rw [List.cons_append, List.find?_cons_of_neg _ (by simp [hx])]
        exact ih
  exact h fs.files

/-- Claim C6: for an upload with a declared jpg/jpeg/png extension (webp is
exempt) whose stored bytes the classifier cannot identify, the handler
returns the invalid-image 400 error, but the full payload has already been
written at the canonical destination path and remains readable there —
the error does not roll back the write. -/
theorem C6_sniff_after_write (ctx : UploadCtx) (fs : FS) (fname : List Char)
    (content : List Nat)
    (hallow : allowedFile ctx.allowedExt fname = true)
    (hext : lowerS (afterLastDot fname) ∈
      ["jpg".toList, "jpeg".toList, "png".toList])
    (hsniff : ctx.sniff content = none) :
    (mediaUpload ctx fs fname content).1 = uploadRespInvalidImage ∧
    (mediaUpload ctx fs fname content).1.status = 400 ∧
    lookupFile (mediaUpload ctx fs fname content).2 (uploadFullpath ctx fname) =
      some content := by
  have hfne : fname ≠ [] := by
    intro h
    rw [h] at hallow
    simp [allowedFile] at hallow
  have hwebp : lowerS (afterLastDot fname) ≠ "webp".toList := by
    simp only [List.mem_cons, List.not_mem_nil, or_false] at hext
    rcases hext with h | h | h <;> rw [h] <;> decide
  have hmem4 : lowerS (afterLastDot fname) ∈
      ["jpg".toList, "jpeg".toList, "png".toList, "webp".toList] := by
    simp only [List.mem_cons, List.not_mem_nil, or_false] at hext ⊢
    rcases hext with h | h | h
    · exact Or.inl h
    · exact Or.inr (Or.inl h)
    · exact Or.inr (Or.inr (Or.inl h))
  unfold mediaUpload
  rw [if_neg hfne]
  rw [if_neg (by rw [hallow]; simp)]
  rw [if_pos ⟨hmem4, hwebp, hsniff⟩]
  exact ⟨rfl, rfl, lookupFile_saveFile _ _ _⟩

theorem C6_sniff_after_write_witness :
    lookupFile (mediaUpload defaultCtx ⟨[], ["/app/media".toList]⟩
        ("cat.jpg".toList) [1, 2, 3]).2
      (uploadFullpath defaultCtx ("cat.jpg".toList)) = some [1, 2, 3] :=
  (C6_sniff_after_write defaultCtx ⟨[], ["/app/media".toList]⟩
    ("cat.jpg".toList) [1, 2, 3] (by decide) (by decide) rfl).2.2

/-- Claim C8: an upload whose filename has no extension or whose
lower-cased extension is not in the allow-set is rejected with HTTP 400
(the extension error; an empty filename yields the file-missing 400), and
the filesystem is returned unchanged: no directory creation and no file
write happens before the rejection. -/
theorem C8_extension_gate (ctx : UploadCtx) (fs : FS) (fname : List Char)
    (content : List Nat)
    (h : allowedFile ctx.allowedExt fname = false) :
    (fname ≠ [] →
      mediaUpload ctx fs fname content = (uploadRespExtNotAllowed, fs)) ∧
    (fname = [] →
      mediaUpload ctx fs fname content = (uploadRespFileMissing, fs)) := by
  constructor
  · intro hne
    unfold mediaUpload
    rw [if_neg hne, if_pos h]
  · intro he
    unfold mediaUpload
    rw [if_pos he]

theorem C8_extension_gate_witness :
    mediaUpload defaultCtx ⟨[], ["/app/media".toList]⟩
        ("payload.exe".toList) [] =
      (uploadRespExtNotAllowed, ⟨[], ["/app/media".toList]⟩) :=
  (C8_extension_gate defaultCtx ⟨[], ["/app/media".toList]⟩
    ("payload.exe".toList) [] (by decide)).1 (by decide)

def root0 : List Char := "/app/media".toList

def cwd0 : List Char := "/srv".toList

def base0 : List Char := "https://storage.grupoupper.com.br".toList

/-- A storage tree holding exactly one stored file, in the May-2024
partition, with 2024 the only year directory and 05 the only month. -/
def fs5 : FS :=
  { files := [("/app/media/uploads/2024/05/a.mp4".toList, [7, 7, 7])],
    dirs := ["/app/media".toList, "/app/media/uploads".toList,
             "/app/media/uploads/2024".toList,
             "/app/media/uploads/2024/05".toList] }

/-- Claim C5 counterexample: deleting the only file of uploads/2024/05
through the delete endpoint (the accepted address
"/cdn/../uploads/2024/05/a.mp4" resolves to that file) removes not only 05
and 2024 but also the now-empty uploads directory itself, although the
claim states uploads is never removed even if it ends up empty. -/
theorem C5_pruning_counterexample :
    ("/app/media/uploads".toList) ∈ fs5.dirs ∧
    (mediaDelete base0 cwd0 root0 fs5
      ("/cdn/../uploads/2024/05/a.mp4".toList)).1.status = 200 ∧
    ¬ ("/app/media/uploads".toList) ∈
      (mediaDelete base0 cwd0 root0 fs5
        ("/cdn/../uploads/2024/05/a.mp4".toList)).2.dirs := by
  exact ⟨by decide, by decide, by decide⟩

/-- Claim C5 (amended): deleting the only file of uploads/2024/05 removes
the now-empty 05 and 2024 directories AND the now-empty uploads directory
(the walk covers exactly three levels), while the storage root survives;
in general the loop can only ever remove directories among the at most
three ancestors it visits, and it stops at the first missing or non-empty
ancestor. -/
theorem C5_pruning_amended :
    ((mediaDelete base0 cwd0 root0 fs5
        ("/cdn/../uploads/2024/05/a.mp4".toList)).1.status = 200 ∧
     (mediaDelete base0 cwd0 root0 fs5
        ("/cdn/../uploads/2024/05/a.mp4".toList)).2.dirs = [root0] ∧
     (mediaDelete base0 cwd0 root0 fs5
        ("/cdn/../uploads/2024/05/a.mp4".toList)).2.files = []) ∧
    (∀ (fs : FS) (parent d : List Char) (n : Nat), d ∈ fs.dirs →
      ¬ d ∈ pruneChain parent n → d ∈ (pruneLoop fs parent n).dirs) ∧
    (∀ (fs : FS) (parent : List Char) (n : Nat),
      (¬ parent ∈ fs.dirs ∨ emptyDir fs parent = false) →
      pruneLoop fs parent (n + 1) = fs) := by
  refine ⟨⟨by decide, by decide, by decide⟩, ?_, ?_⟩
  · intro fs parent d n
    induction n generalizing fs parent with
    | zero => intro hmem _; exact hmem
    | succ k ih =>
      intro hmem hchain
      rw [show pruneLoop fs parent (k + 1) =
        (if parent ∈ fs.dirs ∧ emptyDir fs parent = true then
          pruneLoop (removeDir fs parent) (dirname parent) k
        else fs) from rfl]
      by_cases hcond : parent ∈ fs.dirs ∧ emptyDir fs parent = true
      · rw [if_pos hcond]
        apply ih
        · unfold removeDir
          have hne : d ≠ parent := by
            intro hd
            apply hchain
            rw [show pruneChain parent (k + 1) =
              parent :: pruneChain (dirname parent) k from rfl]
            rw [hd]
            exact List.mem_cons_self _ _
          exact (List.mem_erase_of_ne hne).mpr hmem
        · intro hc
          apply hchain
          rw [show pruneChain parent (k + 1) =
            parent :: pruneChain (dirname parent) k from rfl]
          exact List.mem_cons_of_mem _ hc
      · rw [if_neg hcond]
        exact hmem
  · intro fs parent n hfail
    rw [show pruneLoop fs parent (n + 1) =
      (if parent ∈ fs.dirs ∧ emptyDir fs parent = true then
        pruneLoop (removeDir fs parent) (dirname parent) n
      else fs) from rfl]
    rw [if_neg ?_]
    rcases hfail with h | h
    · intro hcond
      exact h hcond.1
    · intro hcond
      rw [h] at hcond
      exact Bool.false_ne_true hcond.2

theorem C5_pruning_amended_witness :
    root0 ∈ (pruneLoop fs5 ("/app/media/uploads/2024/05".toList) 3).dirs :=
  C5_pruning_amended.2.1 fs5 ("/app/media/uploads/2024/05".toList) root0 3
    (by decide) (by decide)

theorem pruneLoop_files : ∀ (n : Nat) (fs : FS) (parent : List Char),
    (pruneLoop fs parent n).files = fs.files := by
  intro n
  induction n with
  | zero => intro fs parent; rfl
  | succ k ih =>
    intro fs parent
    rw [show pruneLoop fs parent (k + 1) =
      (if parent ∈ fs.dirs ∧ emptyDir fs parent = true then
        pruneLoop (removeDir fs parent) (dirname parent) k
      else fs) from rfl]
    by_cases h : parent ∈ fs.dirs ∧ emptyDir fs parent = true
    · rw [if_pos h, ih]
      rfl
    · rw [if_neg h]

/-- Lemma: `normpath` is the identity on a relative path already in canonical form
(slash-joined good components). -/
theorem normpath_canonical_rel (parts : List (List Char)) (hne : parts ≠ [])
    (hgood : ∀ c ∈ parts, goodComp c ∧ '/' ∉ c) :
    normpath (joinChar '/' parts) = joinChar '/' parts := by
  obtain ⟨p1, rest, rfl⟩ : ∃ p1 rest, parts = p1 :: rest := by
    cases parts with
    | nil => exact absurd rfl hne
    | cons p1 rest => exact ⟨p1, rest, rfl⟩
  obtain ⟨a, p1', rfl⟩ : ∃ a p1', p1 = a :: p1' := by
    cases p1 with
    | nil => exact absurd rfl (hgood [] (List.mem_cons_self _ _)).1.1
    | cons a p1' => exact ⟨a, p1', rfl⟩
  have hane : a ≠ '/' := by
    intro h
    exact (hgood _ (List.mem_cons_self _ _)).2 (h ▸ List.mem_cons_self a p1')
  obtain ⟨q, hq⟩ := joinChar_head '/' a p1' rest
  have hpne : joinChar '/' ((a :: p1') :: rest) ≠ [] := by
    rw [hq]; simp
  have hslash : normSlashes (joinChar '/' ((a :: p1') :: rest)) = 0 := by
    unfold normSlashes
    rw [if_neg ?_]
    rw [hq]
    intro hpre
    obtain ⟨hc, _⟩ := List.cons_prefix_cons.mp ((isPrefixOf_eq_true _ _).mp hpre)
    exact hane hc.symm
  unfold normpath
  rw [if_neg hpne, hslash]
  rw [splitChar_joinChar '/' _ (by simp) (fun c hc => (hgood c hc).2)]
  rw [normFold_append 0 _ [] (fun c hc => (hgood c hc).1)]
  unfold normAssemble
  rw [show List.replicate 0 '/' = ([] : List Char) from rfl]
  rw [List.nil_append, List.nil_append, if_neg hpne]

/-- The input is a canonical `/cdn/` address: a single leading slash, a
first component `cdn`, and at least one further good component, with no
empty, dot or dot-dot segments and no redundant separators. -/
def isCanonicalCdn (s : List Char) : Bool :=
  match splitChar '/' s with
  | [] :: c :: parts =>
    decide (c = "cdn".toList) && !parts.isEmpty &&
      (c :: parts).all (fun x => decide (goodComp x))
  | _ => false

theorem isCanonicalCdn_spec (s : List Char) (h : isCanonicalCdn s = true) :
    ∃ parts, parts ≠ [] ∧
      (∀ c ∈ ("cdn".toList :: parts), goodComp c ∧ '/' ∉ c) ∧
      s = '/' :: joinChar '/' ("cdn".toList :: parts) := by
  unfold isCanonicalCdn at h
  cases hs : splitChar '/' s with
  | nil => exact absurd hs (splitChar_ne_nil _ _)
  | cons first rest =>
    rw [hs] at h
    cases first with
    | cons a l => simp at h
    | nil =>
      cases rest with
      | nil => simp at h
      | cons c parts =>
        rw [Bool.and_eq_true, Bool.and_eq_true] at h
        obtain ⟨⟨hcdn, hne⟩, hall⟩ := h
        have hcdn2 : c = "cdn".toList := of_decide_eq_true hcdn
        have hne2 : parts ≠ [] := by
          intro hp
          rw [hp] at hne
          simp at hne
        have hgood : ∀ x ∈ c :: parts, goodComp x ∧ '/' ∉ x := by
          intro x hx
          rw [List.all_eq_true] at hall
          refine ⟨of_decide_eq_true (hall x hx), ?_⟩
          exact mem_splitChar_sepfree '/' s x (hs ▸ List.mem_cons_of_mem [] hx)
        subst hcdn2
        refine ⟨parts, hne2, hgood, ?_⟩
        have hr : s = joinChar '/' (splitChar '/' s) :=
          (joinChar_splitChar '/' s).symm
        rw [hs] at hr
        rw [hr]
        rfl

/-- A storage tree whose stored file lies where the delete endpoint
resolves `/cdn/` addresses: under `<root>/cdn/uploads/...`. -/
def fs9 : FS :=
  { files := [("/app/media/cdn/uploads/2024/05/a.mp4".toList, [1, 2, 3])],
    dirs := ["/app/media".toList, "/app/media/cdn".toList,
             "/app/media/cdn/uploads".toList,
             "/app/media/cdn/uploads/2024".toList,
             "/app/media/cdn/uploads/2024/05".toList] }

/-- Claim C9 counterexample: the two accepted inputs
"/cdn//uploads/2024/05/a.mp4" (redundant separator) and
"/cdn/uploads/2024/05/a.mp4" delete the same file (identical resulting
filesystems), yet the first success reports the unnormalized
double-slash input, not the canonical path of the deleted file: the
handler echoes `"/" + s.lstrip("/")` without normalization. -/
theorem C9_delete_return_counterexample :
    ((mediaDelete base0 cwd0 root0 fs9
        ("/cdn//uploads/2024/05/a.mp4".toList)).1.status = 200 ∧
     (mediaDelete base0 cwd0 root0 fs9
        ("/cdn//uploads/2024/05/a.mp4".toList)).1.deleted =
       some ("/cdn//uploads/2024/05/a.mp4".toList) ∧
     (mediaDelete base0 cwd0 root0 fs9
        ("/cdn//uploads/2024/05/a.mp4".toList)).2.files = []) ∧
    ((mediaDelete base0 cwd0 root0 fs9
        ("/cdn/uploads/2024/05/a.mp4".toList)).1.deleted =
       some ("/cdn/uploads/2024/05/a.mp4".toList) ∧
     (mediaDelete base0 cwd0 root0 fs9
        ("/cdn/uploads/2024/05/a.mp4".toList)).2 =
       (mediaDelete base0 cwd0 root0 fs9
        ("/cdn//uploads/2024/05/a.mp4".toList)).2) ∧
    ¬ (some ("/cdn//uploads/2024/05/a.mp4".toList) =
       some ("/cdn/uploads/2024/05/a.mp4".toList)) := by
  exact ⟨⟨by decide, by decide, by decide⟩, ⟨by decide, by decide⟩, by decide⟩

/-- Claim C9 (amended): a successful removal returns `"/"` plus the
base-stripped input with its leading slashes removed, without
normalization; this equals the canonical path of the deleted file exactly
when the input is already canonical.  For every input in canonical
`/cdn/...` form (and a canonically-formed storage root), a successful
removal returns exactly the input, and the file actually deleted is
`root ++ input`. -/
theorem C9_delete_canonical_amended (baseURL cwd root : List Char) (fs : FS)
    (s : List Char)
    (hroot : isNormalRoot root = true)
    (hrl : root.getLast? ≠ some '/')
    (hcanon : isCanonicalCdn s = true)
    (hsp : noTrailingSpace s = true)
    (hfile : isFile fs (root ++ s) = true) :
    (mediaDelete baseURL cwd root fs s).1.status = 200 ∧
    (mediaDelete baseURL cwd root fs s).1.deleted = some s ∧
    (mediaDelete baseURL cwd root fs s).2.files =
      fs.files.filter (fun e => ¬ e.1 = root ++ s) := by
  obtain ⟨parts, hpne, hgoodc, hseq⟩ := isCanonicalCdn_spec s hcanon
  obtain ⟨rparts, hrne, hrgood, hrsplit, hrooteq⟩ := isNormalRoot_spec root hroot
  obtain ⟨q, hq⟩ := joinChar_head '/' 'c' ("dn".toList) parts
  have hq2 : joinChar '/' ("cdn".toList :: parts) = 'c' :: q := hq
  have hshead : s.head? = some '/' := by rw [hseq]; rfl
  have hstrip : pystrip s = s := by
    apply pystrip_eq_self
    · intro c hc
      rw [hshead] at hc
      cases hc
      decide
    · exact hsp
  have hsne : ¬ (pystrip s = []) := by
    rw [hstrip, hseq]
    simp
  have hhttp : (("http://".toList).isPrefixOf s ||
      ("https://".toList).isPrefixOf s) = false := by
    rw [hseq]
    rfl
  have hstripbase : stripBase baseURL (pystrip s) = s := by
    rw [hstrip]
    unfold stripBase
    rw [if_neg (by rw [hhttp]; simp)]
  have hcdnpre : ("/cdn/".toList).isPrefixOf s = true := by
    apply (isPrefixOf_eq_true _ _).mpr
    rw [hseq]
    cases parts with
    | nil => exact absurd rfl hpne
    | cons p2 pt => exact ⟨joinChar '/' (p2 :: pt), rfl⟩
  have hdropeq : s.dropWhile (fun c => c = '/') =
      joinChar '/' ("cdn".toList :: parts) := by
    rw [hseq, List.dropWhile_cons, if_pos (by simp)]
    apply dropWhile_eq_self_of_head
    intro c hc
    rw [hq2] at hc
    simp at hc
    rw [← hc]
    decide
  have hnormR : normpath (joinChar '/' ("cdn".toList :: parts)) =
      joinChar '/' ("cdn".toList :: parts) :=
    normpath_canonical_rel _ (by simp) hgoodc
  have hRabs : ("/".toList).isPrefixOf (joinChar '/' ("cdn".toList :: parts)) =
      false := by
    rw [hq2]
    rfl
  have hpjoin : pjoin root (joinChar '/' ("cdn".toList :: parts)) =
      root ++ '/' :: joinChar '/' ("cdn".toList :: parts) := by
    unfold pjoin
    rw [if_neg (by rw [hRabs]; simp)]
    rw [if_neg ?_]
    rintro (h | h)
    · rw [hrooteq] at h
      cases h
    · exact hrl h
  have hjoin2 : root ++ '/' :: joinChar '/' ("cdn".toList :: parts) =
      '/' :: joinChar '/' (rparts ++ "cdn".toList :: parts) := by
    rw [hrooteq, joinChar_append '/' rparts ("cdn".toList :: parts) hrne (by simp)]
    simp
  have hnormfull : normpath (root ++ '/' :: joinChar '/' ("cdn".toList :: parts)) =
      root ++ '/' :: joinChar '/' ("cdn".toList :: parts) := by
    rw [hjoin2]
    apply normpath_canonical
    · simp
    · intro c hc
      rcases List.mem_append.mp hc with h | h
      · exact hrgood c h
      · exact hgoodc c h
  have habs2 : abspath cwd (pjoin root
      (normpath (joinChar '/' ("cdn".toList :: parts)))) =
      root ++ '/' :: joinChar '/' ("cdn".toList :: parts) := by
    rw [hnormR, hpjoin]
    unfold abspath
    rw [if_pos ?_]
    · exact hnormfull
    · apply (isPrefixOf_eq_true _ _).mpr
      refine ⟨joinChar '/' rparts ++ '/' :: joinChar '/' ("cdn".toList :: parts), ?_⟩
      rw [hrooteq]
      simp
  have hresolve : resolveUnder cwd root (joinChar '/' ("cdn".toList :: parts)) =
      some (root ++ '/' :: joinChar '/' ("cdn".toList :: parts)) := by
    unfold resolveUnder
    rw [habs2, abspath_normalRoot cwd root hroot]
    rw [if_pos ?_]
    apply (isPrefixOf_eq_true _ _).mpr
    refine ⟨joinChar '/' ("cdn".toList :: parts), ?_⟩
    simp
  have hfulls : root ++ '/' :: joinChar '/' ("cdn".toList :: parts) =
      root ++ s := by
    rw [hseq]
  unfold mediaDelete
  rw [if_neg hsne, hstripbase]
  rw [if_neg (by rw [hcdnpre]; simp)]
  rw [hdropeq, hresolve]
  rw [show mediaDeleteCore fs (joinChar '/' ("cdn".toList :: parts))
      (some (root ++ '/' :: joinChar '/' ("cdn".toList :: parts))) =
    (if isFile fs (root ++ '/' :: joinChar '/' ("cdn".toList :: parts)) = true then
      ({ status := 200, okFlag := true,
         deleted := some ('/' :: joinChar '/' ("cdn".toList :: parts)),
         errorMsg := none },
       pruneLoop (removeFile fs (root ++ '/' :: joinChar '/' ("cdn".toList :: parts)))
         (dirname (root ++ '/' :: joinChar '/' ("cdn".toList :: parts))) 3)
    else (delRespNotFound, fs)) from rfl]
  rw [hfulls]
  rw [if_pos hfile]
  refine ⟨rfl, ?_, ?_⟩
  · rw [← hseq]
  · rw [pruneLoop_files]
    rfl

theorem C9_delete_canonical_amended_witness :
    (mediaDelete base0 cwd0 root0 fs9
      ("/cdn/uploads/2024/05/a.mp4".toList)).1.deleted =
      some ("/cdn/uploads/2024/05/a.mp4".toList) :=
  (C9_delete_canonical_amended base0 cwd0 root0 fs9
    ("/cdn/uploads/2024/05/a.mp4".toList) (by decide) (by decide)
    (by decide) (by decide) (by decide)).2.1
